import Mathlib

/-!
Verification of the Transit core of `magic-wormhole`
(`src/wormhole/twisted/transit.py`), shallowly embedded in Lean 4.

Byte strings are `List Nat`; Python `int` is `Nat` (all integers involved are
non-negative); fallible Python code returns `Except PyErr`; stateful methods
become explicit state passing.  Cryptographic primitives (`nacl.SecretBox`,
HKDF) are external libraries, out of scope of the repository; they are
modelled from the spec as black boxes (a sealed record is the 24-byte nonce
prepended to a ciphertext; `open` recovers the plaintext).
-/

namespace Transit

/-- Byte strings: each element is one byte value (0..255 in the source). -/
abbrev Bytes := List Nat

/-- Python exception taxonomy used by `transit.py`.  `badHandshake` carries the
`(got, want)` pair that the source interpolates into its message;
`badNonce` carries `(got, expected)`. -/
inductive PyErr where
  | usageError
  | assertionError
  | valueError
  | indexError
  | cancelledError
  | badNonce (got expected : Nat)
  | badHandshake (got want : Bytes)
deriving DecidableEq, Repr

/-- Big-endian encoding of `n` into exactly `w` bytes.  This embeds the
Python idiom `unhexlify("%0(2w)x" % n)` for `n < 256 ^ w`. -/
def toBE : Nat → Nat → Bytes
  | 0, _ => []
  | w + 1, n => toBE w (n / 256) ++ [n % 256]

/-- Big-endian value of a byte string.  This embeds the Python idiom
`int(hexlify(bs), 16)` for non-empty `bs`. -/
def fromBE (bs : Bytes) : Nat :=
  bs.foldl (fun a b => a * 256 + b) 0

/-- Embeds `int(hexlify(bs), 16)` exactly: on the empty string Python's
`int("", 16)` raises `ValueError`; otherwise the big-endian value. -/
def pyIntHex (bs : Bytes) : Except PyErr Nat :=
  if bs = [] then .error .valueError else .ok (fromBE bs)

/-- SecretBox.NONCE_SIZE in the source (asserted to be 24 there). -/
def NONCE_SIZE : Nat := 24

/-- Modelled from the spec: the authenticated-encryption black box
`seal(key, nonce, pt)` of `nacl.SecretBox.encrypt`, which is external to the
repository.  Per the spec, the nonce is prepended to the ciphertext on the
wire; the ciphertext body is modelled as the plaintext itself (the claims
under verification do not depend on the cipher). -/
def sbox_seal (_key nonce pt : Bytes) : Bytes :=
  nonce ++ pt

/-- Modelled from the spec: the black box `open(key, ct) -> pt` of
`nacl.SecretBox.decrypt`, inverse of `seal` on the nonce-prepended layout. -/
def sbox_open (_key ct : Bytes) : Bytes :=
  ct.drop NONCE_SIZE

/-! ## Connection._check_and_remove -/

/-- Embeds `Connection._check_and_remove(expected)`.  The Python method
mutates `self.buf` and returns a bool or raises `BadHandshake`; here the
(possibly shortened) buffer is returned alongside the bool. -/
def _check_and_remove (buf expected : Bytes) : Except PyErr (Bool × Bytes) :=
  if ¬ ((expected.take buf.length).isPrefixOf buf) then
    .error (.badHandshake buf expected)
  else if buf.length < expected.length then
    .ok (false, buf)
  else
    .ok (true, buf.drop expected.length)

/-- Helper: the source's guard `buf.startswith(expected[:len(buf)])` holds
exactly when one of the two strings is a prefix of the other. -/
theorem take_isPrefixOf_iff (b e : Bytes) :
    (e.take b.length).isPrefixOf b = true ↔ (b.IsPrefix e ∨ e.IsPrefix b) := by
  induction b generalizing e with
  | nil =>
    simp [List.isPrefixOf]
  | cons x b ih =>
    cases e with
    | nil =>
      simp [List.isPrefixOf]
    | cons y e =>
      simp only [List.length_cons, List.take_succ_cons, List.isPrefixOf,
        List.cons_prefix_cons]
      constructor
      · intro h
        rcases Bool.and_eq_true _ _ |>.mp h with ⟨h1, h2⟩
        have hxy : y = x := by simpa using h1
        rcases (ih e).mp h2 with h3 | h3
        · exact Or.inl ⟨hxy.symm, h3⟩
        · exact Or.inr ⟨hxy, h3⟩
      · intro h
        apply Bool.and_eq_true _ _ |>.mpr
        rcases h with ⟨hxy, h3⟩ | ⟨hxy, h3⟩
        · exact ⟨by simpa using hxy.symm, (ih e).mpr (Or.inl h3)⟩
        · exact ⟨by simpa using hxy, (ih e).mpr (Or.inr h3)⟩

/-- Helper: mutual non-prefixness is the same as a byte of `b` deviating from
the corresponding byte of `e` (at an index both strings possess). -/
theorem not_biprefix_iff_deviation (b e : Bytes) :
    ¬ (b.IsPrefix e ∨ e.IsPrefix b) ↔
      ∃ i, i < b.length ∧ i < e.length ∧ b.getD i 0 ≠ e.getD i 0 := by
  induction b generalizing e with
  | nil =>
    simp
  | cons x b ih =>
    cases e with
    | nil =>
      simp
    | cons y e =>
      simp only [List.cons_prefix_cons, List.length_cons]
      constructor
      · intro h
        by_cases hxy : x = y
        · have h2 : ¬ (b.IsPrefix e ∨ e.IsPrefix b) := by
            intro hc
            rcases hc with hc | hc
            · exact h (Or.inl ⟨hxy, hc⟩)
            · exact h (Or.inr ⟨hxy.symm, hc⟩)
          rcases (ih e).mp h2 with ⟨i, h3, h4, h5⟩
          exact ⟨i + 1, by omega, by omega, by simpa using h5⟩
        · exact ⟨0, by omega, by omega, by simpa using hxy⟩
      · rintro ⟨i, h1, h2, h3⟩ hc
        cases i with
        | zero =>
          rcases hc with ⟨hxy, _⟩ | ⟨hxy, _⟩
          · exact h3 (by simpa using hxy)
          · exact h3 (by simpa using hxy.symm)
        | succ j =>
          have h2' : ¬ (b.IsPrefix e ∨ e.IsPrefix b) := by
            apply (ih e).mpr
            exact ⟨j, by omega, by omega, by simpa using h3⟩
          rcases hc with ⟨hxy, hc2⟩ | ⟨hxy, hc2⟩
          · exact h2' (Or.inl hc2)
          · exact h2' (Or.inr hc2)

/-- C5: `_check_and_remove` raises `BadHandshake` exactly when some byte of
`buf` deviates from the corresponding byte of `expected`; a strict prefix of
`expected` returns `False` with `buf` unchanged; a buffer that starts with all
of `expected` returns `True` having consumed exactly `expected`, keeping any
surplus bytes. -/
theorem C5_check_and_remove (buf expected : Bytes) :
    (_check_and_remove buf expected = .error (.badHandshake buf expected) ↔
      ∃ i, i < buf.length ∧ i < expected.length ∧ buf.getD i 0 ≠ expected.getD i 0)
    ∧ (buf.IsPrefix expected → buf.length < expected.length →
        _check_and_remove buf expected = .ok (false, buf))
    ∧ (∀ surplus, buf = expected ++ surplus →
        _check_and_remove buf expected = .ok (true, surplus)) := by
  refine ⟨?_, ?_, ?_⟩
  · rw [← not_biprefix_iff_deviation, ← take_isPrefixOf_iff]
    unfold _check_and_remove
    constructor
    · intro h hpre
      rw [if_neg (by simpa using hpre)] at h
      split at h <;> simp at h
    · intro h
      rw [if_pos (by simpa using h)]
  · intro h hlt
    unfold _check_and_remove
    rw [if_neg, if_pos hlt]
    simp only [Decidable.not_not]
    rw [take_isPrefixOf_iff]
    exact Or.inl h
  · intro surplus hsur
    subst hsur
    unfold _check_and_remove
    rw [if_neg, if_neg (by simp)]
    · simp
    · simp only [Decidable.not_not]
      rw [take_isPrefixOf_iff]
      exact Or.inr ⟨surplus, rfl⟩

/-- Witness for C5 at concrete inputs: a deviating buffer errors, a strict
prefix waits, a full match consumes and keeps the surplus. -/
theorem C5_check_and_remove_witness :
    _check_and_remove [103, 111] [103, 111, 10] = .ok (false, [103, 111])
    ∧ _check_and_remove [103, 111, 10, 7] [103, 111, 10] = .ok (true, [7])
    ∧ _check_and_remove [104] [103, 111, 10] = .error (.badHandshake [104] [103, 111, 10]) := by
  refine ⟨?_, ?_, ?_⟩
  · exact (C5_check_and_remove [103, 111] [103, 111, 10]).2.1 ⟨[10], by decide⟩ (by decide)
  · exact (C5_check_and_remove [103, 111, 10, 7] [103, 111, 10]).2.2 [7] (by decide)
  · exact (C5_check_and_remove [104] [103, 111, 10]).1.mpr ⟨0, by decide, by decide, by decide⟩

/-! ## Connection._decrypt_record -/

/-- Embeds `Connection._decrypt_record(encrypted)`.  The receive-nonce field
is threaded explicitly and returned in every case, which makes the mutation
order of the source visible: `int(hexlify(...), 16)` is evaluated first (and
raises `ValueError` on an empty ciphertext), the nonce comparison happens
before `next_receive_nonce += 1`, and decryption happens after it. -/
def _decrypt_record (key : Bytes) (next_receive_nonce : Nat) (encrypted : Bytes) :
    Except PyErr Bytes × Nat :=
  match pyIntHex (encrypted.take NONCE_SIZE) with
  | .error e => (.error e, next_receive_nonce)
  | .ok nonce =>
    if nonce ≠ next_receive_nonce then
      (.error (.badNonce nonce next_receive_nonce), next_receive_nonce)
    else
      (.ok (sbox_open key encrypted), next_receive_nonce + 1)

/-- Counterexample to C2 as stated: a complete frame may carry an empty
ciphertext (length field 0).  Its first 24 bytes are empty, of big-endian
value 0, which differs from `next_receive_nonce = 1`; the claim then demands
`BadNonce`, but the source raises `ValueError` out of `int("", 16)` before
the nonce comparison is ever reached. -/
theorem C2_decrypt_record_counterexample :
    fromBE (([] : Bytes).take NONCE_SIZE) = 0
    ∧ _decrypt_record [] 1 [] = (.error .valueError, 1)
    ∧ (.error .valueError, 1) ≠ ((.error (.badNonce 0 1), 1) : Except PyErr Bytes × Nat) := by
  refine ⟨rfl, rfl, by simp⟩

/-- C2 amended: for every received complete frame whose ciphertext is
non-empty, if the big-endian value of the first 24 bytes of the ciphertext
differs from `next_receive_nonce` then `_decrypt_record` raises `BadNonce`
with `next_receive_nonce` unchanged; if it is equal, `next_receive_nonce` is
incremented by exactly one and the decrypted plaintext is returned. -/
theorem C2_decrypt_record_nonce_check (key : Bytes) (n : Nat) (encrypted : Bytes)
    (hne : encrypted ≠ []) :
    (fromBE (encrypted.take NONCE_SIZE) ≠ n →
      _decrypt_record key n encrypted =
        (.error (.badNonce (fromBE (encrypted.take NONCE_SIZE)) n), n))
    ∧ (fromBE (encrypted.take NONCE_SIZE) = n →
      _decrypt_record key n encrypted = (.ok (sbox_open key encrypted), n + 1)) := by
  have htk : encrypted.take NONCE_SIZE ≠ [] := by
    cases encrypted with
    | nil => exact absurd rfl hne
    | cons a t => simp [NONCE_SIZE]
  constructor
  · intro hne2
    unfold _decrypt_record pyIntHex
    rw [if_neg htk]
    simp only [if_pos hne2]
  · intro heq
    unfold _decrypt_record pyIntHex
    rw [if_neg htk]
    simp [heq]

/-- Witness for C2 at concrete inputs: nonce 0 on a fresh connection is
accepted and increments the counter; nonce 1 is rejected with `BadNonce`. -/
theorem C2_decrypt_record_nonce_check_witness :
    _decrypt_record [] 0 (toBE 24 0 ++ [5]) = (.ok [5], 1)
    ∧ _decrypt_record [] 0 (toBE 24 1 ++ [5]) = (.error (.badNonce 1 0), 0) := by
  constructor
  · exact (C2_decrypt_record_nonce_check [] 0 (toBE 24 0 ++ [5]) (by decide)).2 (by decide)
  · exact (C2_decrypt_record_nonce_check [] 0 (toBE 24 1 ++ [5]) (by decide)).1 (by decide)

/-! ## Connection.send_record -/

/-- Python value passed to `send_record`: either a `bytes` object or a value
of any other type (the source checks `isinstance(record, bytes)`). -/
inductive PyVal where
  | bytes (b : Bytes)
  | other
deriving DecidableEq

/-- Result of a successful `send_record` call: the bytes written to the
transport (length field then sealed record) and the post-call value of
`self.send_nonce`. -/
structure SendResult where
  wire : Bytes
  send_nonce : Nat
deriving DecidableEq, Repr

/-- Embeds `unhexlify("%08x" % n)`, the 4-byte length field.  For
`n < 2 ^ 32` the format yields exactly eight hex digits, i.e. 4 bytes; for
`2 ^ 32 ≤ n < 2 ^ 36` it yields nine digits and `unhexlify` raises on the
odd-length string (larger `n` cannot reach this call site). -/
def pyLen4 (n : Nat) : Except PyErr Bytes :=
  if n < 2 ^ (8 * 4) then .ok (toBE 4 n) else .error .valueError

/-- Embeds `Connection.send_record(record)`: the `isinstance` check raises
`UsageError`; the two `assert` statements raise `AssertionError`; then the
24-byte big-endian nonce is built from the pre-call `send_nonce`, the nonce
counter is incremented, the record is sealed with the nonce prepended, and
the 4-byte length field followed by the sealed record is written. -/
def send_record (key : Bytes) (send_nonce : Nat) (record : PyVal) :
    Except PyErr SendResult :=
  match record with
  | .other => .error .usageError
  | .bytes r =>
    if ¬ send_nonce < 2 ^ (8 * 24) then .error .assertionError
    else if ¬ r.length < 2 ^ (8 * 4) then .error .assertionError
    else
      let nonce := toBE 24 send_nonce
      let encrypted := sbox_seal key nonce r
      (pyLen4 encrypted.length).map
        (fun lengthField => ⟨lengthField ++ encrypted, send_nonce + 1⟩)

/-- Counterexample to C6 as stated: a record of length exactly `2 ^ 32` is
rejected, but by the failing `assert len(record) < 2**(8*4)` — an
`AssertionError` — not by `UsageError` as the claim states. -/
theorem C6_send_record_counterexample :
    send_record [] 0 (.bytes (List.replicate (2 ^ (8 * 4)) 0)) = .error .assertionError
    ∧ (.error .assertionError : Except PyErr SendResult) ≠ .error .usageError := by
  constructor
  · have h1 : (0 : Nat) < 2 ^ (8 * 24) := by positivity
    have h2 : ¬ (List.replicate (2 ^ (8 * 4)) (0 : Nat)).length < 2 ^ (8 * 4) := by
      rw [List.length_replicate]
      exact Nat.lt_irrefl _
    simp only [send_record]
    rw [if_neg (not_not_intro h1), if_pos h2]
  · simp

/-- C6 amended: `send_record` raises `UsageError` when the argument is not a
bytes value; a record of length at least `2 ^ 32` is rejected on send by a
failing assertion (`AssertionError`, not `UsageError`); for a bytes record
that passes the assertions and whose sealed ciphertext is shorter than
`2 ^ 32` bytes, the frame written is the 4-byte big-endian length of the
sealed ciphertext followed by that ciphertext (the 24-byte big-endian nonce
prepended to the encrypted body), the nonce used equals the pre-call
`send_nonce`, and `send_nonce` increases by exactly one. -/
theorem C6_send_record_validation (key : Bytes) (send_nonce : Nat) :
    (send_record key send_nonce .other = .error .usageError)
    ∧ (∀ r : Bytes, ¬ r.length < 2 ^ (8 * 4) →
        send_record key send_nonce (.bytes r) = .error .assertionError)
    ∧ (∀ r : Bytes, send_nonce < 2 ^ (8 * 24) → r.length < 2 ^ (8 * 4) →
        (sbox_seal key (toBE 24 send_nonce) r).length < 2 ^ (8 * 4) →
        send_record key send_nonce (.bytes r) =
          .ok ⟨toBE 4 (sbox_seal key (toBE 24 send_nonce) r).length
                ++ sbox_seal key (toBE 24 send_nonce) r, send_nonce + 1⟩) := by
  refine ⟨rfl, ?_, ?_⟩
  · intro r hr
    by_cases hn : send_nonce < 2 ^ (8 * 24)
    · simp only [send_record]
      rw [if_neg (by simpa using hn), if_pos hr]
    · simp only [send_record]
      rw [if_pos hn]
  · intro r hn hr hct
    simp only [send_record]
    rw [if_neg (by simpa using hn), if_neg (by simpa using hr)]
    simp only [pyLen4, if_pos hct, Except.map]

/-- Witness for C6 at concrete inputs: sending `b"hi"` on a fresh connection
writes the framed sealed record and bumps the nonce to 1, and an oversized
record trips the assertion. -/
theorem C6_send_record_validation_witness :
    send_record [] 0 (.bytes [104, 105]) =
      .ok ⟨toBE 4 26 ++ toBE 24 0 ++ [104, 105], 1⟩
    ∧ send_record [] 0 (.bytes (List.replicate (2 ^ (8 * 4)) 0)) = .error .assertionError := by
  constructor
  · have h := (C6_send_record_validation [] 0).2.2 [104, 105]
      (by norm_num) (by norm_num) (by decide)
    rw [h]
    rfl
  · exact (C6_send_record_validation [] 0).2.1 (List.replicate (2 ^ (8 * 4)) 0)
      (by rw [List.length_replicate]; exact Nat.lt_irrefl _)

/-! ## Common._endpoint_from_hint -/

/-- Python unicode strings are modelled as lists of characters. -/
abbrev PyStr := List Char

/-- Embeds Python `s.split(":")`: splits on every occurrence of the
separator, keeping empty pieces; the result is never empty. -/
def pySplit (sep : Char) : PyStr → List PyStr
  | [] => [[]]
  | c :: rest =>
    if c = sep then [] :: pySplit sep rest
    else
      match pySplit sep rest with
      | [] => [[c]]
      | p :: ps => (c :: p) :: ps

/-- Embeds Python `int(s)` for the unsigned-decimal case: a non-empty string
of ASCII digits parses to its value, anything else raises `ValueError`.
(Python's `int` also accepts surrounding whitespace, a sign and digit-group
underscores; no theorem below relies on the behaviour of those forms.) -/
def pyInt (s : PyStr) : Except PyErr Nat :=
  if s ≠ [] ∧ s.all (fun c => c.isDigit) then
    .ok (s.foldl (fun a c => a * 10 + (c.toNat - 48)) 0)
  else
    .error .valueError

/-- Endpoint value built by `endpoints.HostnameEndpoint(reactor, host, port)`
(the reactor is irrelevant to the claims). -/
structure HostnameEndpoint where
  host : PyStr
  port : Nat
deriving DecidableEq

/-- Embeds `Common._endpoint_from_hint(hint)`: no colon or a non-`tcp` scheme
yields `None`; otherwise Python evaluates `pieces[1]` and `int(pieces[2])`,
so a `tcp` hint with fewer than three pieces raises `IndexError` and a
non-numeric third piece raises `ValueError`. -/
def _endpoint_from_hint (hint : PyStr) : Except PyErr (Option HostnameEndpoint) :=
  if ¬ (':' ∈ hint) then .ok none
  else if (pySplit ':' hint).headD [] ≠ [ 't', 'c', 'p'] then .ok none
  else
    match pySplit ':' hint with
    | _ :: host :: port :: _ =>
      (pyInt port).map (fun n => some ⟨host, n⟩)
    | _ => .error .indexError

/-- Helper: a split always has one more piece than the number of separator
occurrences in the string. -/
theorem pySplit_length (sep : Char) (s : PyStr) :
    (pySplit sep s).length = s.count sep + 1 := by
  induction s with
  | nil => simp [pySplit]
  | cons c rest ih =>
    by_cases hc : c = sep
    · subst hc
      simp [pySplit, ih, List.count_cons]
    · rw [List.count_cons]
      simp only [pySplit, if_neg hc]
      cases hsplit : pySplit sep rest with
      | nil => rw [hsplit] at ih; simp at ih
      | cons p ps =>
        rw [hsplit] at ih
        simp only [List.length_cons] at ih ⊢
        simp [ih, hc]

/-- Helper: the separator occurs in the string exactly when the split has at
least two pieces. -/
theorem mem_iff_pySplit_two (sep : Char) (s : PyStr) :
    sep ∈ s ↔ 2 ≤ (pySplit sep s).length := by
  rw [pySplit_length]
  constructor
  · intro h
    have := List.count_pos_iff.mpr h
    omega
  · intro h
    have : 0 < s.count sep := by omega
    exact List.count_pos_iff.mp this

/-- Counterexample to C7 as stated: the hint `"tcp:x"` passes the colon and
scheme checks, but `pieces[2]` does not exist, so the source raises
`IndexError` instead of returning an endpoint or skipping the hint — the
claim that `_endpoint_from_hint` never raises is false. -/
theorem C7_endpoint_from_hint_counterexample :
    _endpoint_from_hint [ 't', 'c', 'p', ':', 'x'] = .error .indexError
    ∧ ∀ r : Option HostnameEndpoint,
        (Except.error .indexError : Except PyErr (Option HostnameEndpoint)) ≠ .ok r := by
  constructor
  · rfl
  · intro r
    simp

/-- C7 amended: `_endpoint_from_hint` returns no endpoint (`None`) for any
hint that lacks a colon or whose scheme is not `"tcp"` — such hints are
silently skipped without raising — and an endpoint is returned only for
`tcp` hints with at least three colon-separated pieces; however a `tcp`
hint with fewer than three pieces raises `IndexError`, and a `tcp` hint
whose third piece is a non-empty all-digit string yields the endpoint
`(pieces[1], int(pieces[2]))`. -/
theorem C7_endpoint_from_hint_parse (hint : PyStr) :
    (¬ (':' ∈ hint) → _endpoint_from_hint hint = .ok none)
    ∧ ((pySplit ':' hint).headD [] ≠ [ 't', 'c', 'p'] → _endpoint_from_hint hint = .ok none)
    ∧ (∀ scheme port, pySplit ':' hint = [scheme, port] → scheme = [ 't', 'c', 'p'] →
        _endpoint_from_hint hint = .error .indexError)
    ∧ (∀ scheme host port rest, pySplit ':' hint = scheme :: host :: port :: rest →
        scheme = [ 't', 'c', 'p'] → port ≠ [] → port.all (fun c => c.isDigit) →
        _endpoint_from_hint hint =
          .ok (some ⟨host, port.foldl (fun a c => a * 10 + (c.toNat - 48)) 0⟩))
    ∧ (∀ ep, _endpoint_from_hint hint = .ok (some ep) →
        (pySplit ':' hint).headD [] = [ 't', 'c', 'p'] ∧ 3 ≤ (pySplit ':' hint).length) := by
  refine ⟨?_, ?_, ?_, ?_, ?_⟩
  · intro h
    unfold _endpoint_from_hint
    rw [if_pos h]
  · intro h
    unfold _endpoint_from_hint
    by_cases hc : (':' ∈ hint)
    · rw [if_neg (not_not_intro hc), if_pos h]
    · rw [if_pos hc]
  · intro scheme port hsplit hscheme
    have hmem : (':' ∈ hint) := by
      rw [mem_iff_pySplit_two, hsplit]
      simp
    have hhead : (pySplit ':' hint).headD [] = [ 't', 'c', 'p'] := by
      rw [hsplit, hscheme]
      rfl
    unfold _endpoint_from_hint
    rw [if_neg (not_not_intro hmem), if_neg (not_not_intro hhead), hsplit]
  · intro scheme host port rest hsplit hscheme hpne hpdig
    have hmem : (':' ∈ hint) := by
      rw [mem_iff_pySplit_two, hsplit]
      simp
    have hhead : (pySplit ':' hint).headD [] = [ 't', 'c', 'p'] := by
      rw [hsplit, hscheme]
      rfl
    unfold _endpoint_from_hint
    rw [if_neg (not_not_intro hmem), if_neg (not_not_intro hhead), hsplit]
    simp only [pyInt, if_pos (And.intro hpne hpdig), Except.map]
  · intro ep h
    unfold _endpoint_from_hint at h
    by_cases hc : (':' ∈ hint)
    · rw [if_neg (not_not_intro hc)] at h
      by_cases hh : (pySplit ':' hint).headD [] = [ 't', 'c', 'p']
      · refine ⟨hh, ?_⟩
        rw [if_neg (not_not_intro hh)] at h
        rcases hsp : pySplit ':' hint with _ | ⟨p0, _ | ⟨p1, _ | ⟨p2, ps⟩⟩⟩ <;>
          rw [hsp] at h <;> simp_all
      · rw [if_pos hh] at h
        simp at h
    · rw [if_pos hc] at h
      simp at h

/-- Witness for C7 at concrete inputs: a colon-free hint and an onion hint
are skipped, a two-piece tcp hint raises `IndexError`, and a well-formed tcp
hint parses to its host and port. -/
theorem C7_endpoint_from_hint_parse_witness :
    _endpoint_from_hint [ 'x'] = .ok none
    ∧ _endpoint_from_hint [ 'o', 'n', 'i', 'o', 'n', ':', 'a'] = .ok none
    ∧ _endpoint_from_hint [ 't', 'c', 'p', ':', 'x'] = .error .indexError
    ∧ _endpoint_from_hint [ 't', 'c', 'p', ':', 'h', ':', '8', '0'] =
        .ok (some ⟨[ 'h'], 80⟩) := by
  refine ⟨?_, ?_, ?_, ?_⟩
  · exact (C7_endpoint_from_hint_parse [ 'x']).1 (by decide)
  · exact (C7_endpoint_from_hint_parse [ 'o', 'n', 'i', 'o', 'n', ':', 'a']).2.1 (by decide)
  · exact (C7_endpoint_from_hint_parse [ 't', 'c', 'p', ':', 'x']).2.2.1
      [ 't', 'c', 'p'] [ 'x'] (by decide) rfl
  · exact (C7_endpoint_from_hint_parse [ 't', 'c', 'p', ':', 'h', ':', '8', '0']).2.2.2.1
      [ 't', 'c', 'p'] [ 'h'] [ '8', '0'] [] (by decide) rfl (by decide) (by decide)

/-! ## Common.connection_ready and Common.describe -/

/-- Winner-arbitration state of a `Common` (Transit) instance: the role flag
of the concrete subclass (`TransitSender.is_sender = True`,
`TransitReceiver.is_sender = False`) and the `_winner` /
`_winner_description` fields, both `None` after `__init__`.  Candidate
connections are identified by a number; descriptions are strings. -/
structure CommonState where
  is_sender : Bool
  _winner : Option Nat
  _winner_description : Option String
deriving DecidableEq

/-- State of `Common.__init__`: `_winner = None`, `_winner_description = None`. -/
def Common_init (is_sender : Bool) : CommonState :=
  ⟨is_sender, none, none⟩

/-- Embeds `Common.connection_ready(p, description)`: returns the next FSM
state string and (for the first sender-side call) records the winner.
Python's `if self._winner:` truthiness test is `Option.isSome` — `_winner`
only ever holds a (truthy) Connection object. -/
def connection_ready (s : CommonState) (p : Nat) (description : String) :
    CommonState × String :=
  if s.is_sender = false then (s, "wait-for-decision")
  else if s._winner.isSome then (s, "nevermind")
  else ({ s with _winner := some p, _winner_description := some description }, "go")

/-- Embeds `Common.describe()`: Python returns the string
`"not yet established"` or the stored description object (`None` possible in
principle), hence the `Option String` result. -/
def describe (s : CommonState) : Option String :=
  if s._winner.isNone then some "not yet established"
  else s._winner_description

/-- Runs a sequence of `connection_ready(p, description)` calls, collecting
the returned state strings.  `_winner` is written nowhere else in the
source, so these are exactly the reachable arbitration states. -/
def runReady (s : CommonState) : List (Nat × String) → CommonState × List String
  | [] => (s, [])
  | c :: rest =>
    let step := connection_ready s c.1 c.2
    let next := runReady step.1 rest
    (next.1, step.2 :: next.2)

/-- Helper: a receiver-side `connection_ready` never changes the state and
always answers `"wait-for-decision"`. -/
theorem runReady_receiver (s : CommonState) (h : s.is_sender = false)
    (calls : List (Nat × String)) :
    runReady s calls = (s, calls.map (fun _ => "wait-for-decision")) := by
  induction calls with
  | nil => rfl
  | cons c rest ih =>
    simp only [runReady, connection_ready, if_pos h, ih, List.map_cons]

/-- Helper: once a sender-side instance has a winner, `connection_ready`
answers `"nevermind"` forever and the state never changes. -/
theorem runReady_sender_won (s : CommonState) (h : s.is_sender = true)
    (hw : s._winner.isSome) (calls : List (Nat × String)) :
    runReady s calls = (s, calls.map (fun _ => "nevermind")) := by
  induction calls with
  | nil => rfl
  | cons c rest ih =>
    have h2 : ¬ s.is_sender = false := by simp [h]
    simp only [runReady, connection_ready, if_neg h2, if_pos hw, ih, List.map_cons]

/-- C3: starting from `__init__`, a receiver-side instance answers
`"wait-for-decision"` to every `connection_ready` call and never sets
`_winner`; a sender-side instance answers `"go"` to the first call, records
that connection and its description as the winner, and answers
`"nevermind"` to every later call leaving `_winner` and
`_winner_description` unchanged — so at most one winner ever exists. -/
theorem C3_connection_ready_arbitration (calls : List (Nat × String)) :
    (runReady (Common_init false) calls =
      (Common_init false, calls.map (fun _ => "wait-for-decision")))
    ∧ (∀ p d rest, calls = (p, d) :: rest →
        runReady (Common_init true) calls =
          (⟨true, some p, some d⟩, "go" :: rest.map (fun _ => "nevermind"))) := by
  constructor
  · exact runReady_receiver (Common_init false) rfl calls
  · intro p d rest hc
    subst hc
    have h1 : runReady (Common_init true) ((p, d) :: rest) =
        ((runReady ⟨true, some p, some d⟩ rest).1,
          "go" :: (runReady ⟨true, some p, some d⟩ rest).2) := rfl
    rw [h1, runReady_sender_won ⟨true, some p, some d⟩ rfl rfl rest]

/-- Witness for C3 at a concrete call sequence: with two sender-side
arrivals the first wins, the second is refused, and the final state holds
the first connection only. -/
theorem C3_connection_ready_arbitration_witness :
    runReady (Common_init true) [(1, "->a"), (2, "->b")] =
      (⟨true, some 1, some "->a"⟩, [ "go", "nevermind"]) :=
  (C3_connection_ready_arbitration [(1, "->a"), (2, "->b")]).2 1 "->a" [(2, "->b")] rfl

/-- C10: on a `TransitReceiver` (`is_sender = False`), `connection_ready`
never assigns `_winner`, so for every reachable state `describe()` returns
`"not yet established"`, even after connections have negotiated. -/
theorem C10_receiver_describe (calls : List (Nat × String)) :
    (runReady (Common_init false) calls).1._winner = none
    ∧ describe (runReady (Common_init false) calls).1 = some "not yet established" := by
  rw [runReady_receiver (Common_init false) rfl calls]
  exact ⟨rfl, rfl⟩

/-! ## Common._connect -/

/-- Timing constants of the source, in seconds (`RELAY_DELAY = 2.0` is the
float literal 2.0; all values involved are exact small integers). -/
def TIMEOUT : Nat := 15

/-- Common.RELAY_DELAY from the source. -/
def RELAY_DELAY : Nat := 2

/-- One contender assembled by `_connect`: the listener's pending deferred, a
direct dial (started immediately), or a relay dial scheduled via
`task.deferLater` with the given delay in seconds. -/
inductive ContenderSpec where
  | listener
  | direct (description : PyStr)
  | relay (description : PyStr) (delay : Nat)
deriving DecidableEq

/-- Outcome of `_connect` as far as scheduling is concerned: the contender
list handed to `there_can_be_only_one`, and the `_not_forever` cap (seconds)
after which the winner deferred is cancelled. -/
structure ConnectPlan where
  contenders : List ContenderSpec
  cap : Nat
deriving DecidableEq

/-- Embeds the loop over `self._their_direct_hints`: non-viable hints are
skipped, each viable hint appends a direct contender with description
`"->%s" % hint` and sets `relay_delay = RELAY_DELAY`.  An exception from
`_endpoint_from_hint` propagates out of `_connect`. -/
def processDirect : List PyStr → List ContenderSpec → Nat →
    Except PyErr (List ContenderSpec × Nat)
  | [], cs, relay_delay => .ok (cs, relay_delay)
  | h :: rest, cs, relay_delay =>
    match _endpoint_from_hint h with
    | .error e => .error e
    | .ok none => processDirect rest cs relay_delay
    | .ok (some _) =>
      processDirect rest (cs ++ [ContenderSpec.direct ([ '-', '>'] ++ h)]) RELAY_DELAY

/-- Embeds the loop over `self._their_relay_hints`: each viable hint appends
a relay contender, scheduled `relay_delay` seconds later, with description
`"->relay:%s" % hint`. -/
def processRelay : List PyStr → List ContenderSpec → Nat →
    Except PyErr (List ContenderSpec)
  | [], cs, _ => .ok cs
  | h :: rest, cs, relay_delay =>
    match _endpoint_from_hint h with
    | .error e => .error e
    | .ok none => processRelay rest cs relay_delay
    | .ok (some _) =>
      processRelay rest
        (cs ++ [ContenderSpec.relay ([ '-', '>', 'r', 'e', 'l', 'a', 'y', ':'] ++ h) relay_delay])
        relay_delay

/-- Embeds `Common._connect`: the listener deferred is the first contender,
`relay_delay` starts at 0, the direct loop may raise it to `RELAY_DELAY`,
the relay loop schedules with the final value, and the winner from
`there_can_be_only_one` is wrapped in `_not_forever(2*TIMEOUT, ...)`. -/
def _connect (their_direct_hints their_relay_hints : List PyStr) :
    Except PyErr ConnectPlan :=
  match processDirect their_direct_hints [ContenderSpec.listener] 0 with
  | .error e => .error e
  | .ok (cs, relay_delay) =>
    match processRelay their_relay_hints cs relay_delay with
    | .error e => .error e
    | .ok cs2 => .ok ⟨cs2, 2 * TIMEOUT⟩

/-- Predicate: the hint parses to an endpoint (the source's `if not ep:
continue` keeps exactly these). -/
def viableHint (h : PyStr) : Prop :=
  ∃ ep, _endpoint_from_hint h = .ok (some ep)

/-- Helper: the direct loop ends with `relay_delay = RELAY_DELAY` exactly
when it started there or saw a viable hint, adds no relay contenders, and
otherwise returns its input delay. -/
theorem processDirect_spec (l : List PyStr) (cs : List ContenderSpec) (rd : Nat)
    (cs' : List ContenderSpec) (rd' : Nat)
    (hok : processDirect l cs rd = .ok (cs', rd')) :
    ((∃ h ∈ l, viableHint h) → rd' = RELAY_DELAY)
    ∧ ((∀ h ∈ l, ¬ viableHint h) → rd' = rd)
    ∧ (∀ d dl, ContenderSpec.relay d dl ∈ cs' → ContenderSpec.relay d dl ∈ cs) := by
  induction l generalizing cs rd with
  | nil =>
    simp only [processDirect] at hok
    obtain ⟨h1, h2⟩ : cs' = cs ∧ rd' = rd := by
      constructor <;> { injection hok with h3; cases h3; rfl }
    subst h1; subst h2
    exact ⟨fun hc => by simp at hc, fun _ => rfl, fun d dl hm => hm⟩
  | cons h rest ih =>
    simp only [processDirect] at hok
    cases hep : _endpoint_from_hint h with
    | error e => rw [hep] at hok; exact absurd hok (by simp)
    | ok o =>
      cases o with
      | none =>
        rw [hep] at hok
        obtain ⟨ha, hb, hc⟩ := ih cs rd hok
        refine ⟨?_, ?_, hc⟩
        · rintro ⟨g, hg, hv⟩
          rcases List.mem_cons.mp hg with hg | hg
          · subst hg
            obtain ⟨ep, hep2⟩ := hv
            rw [hep] at hep2
            exact absurd hep2 (by simp)
          · exact ha ⟨g, hg, hv⟩
        · intro hall
          exact hb (fun g hg => hall g (List.mem_cons_of_mem h hg))
      | some ep =>
        rw [hep] at hok
        obtain ⟨ha, hb, hc⟩ := ih (cs ++ [ContenderSpec.direct ([ '-', '>'] ++ h)]) RELAY_DELAY hok
        refine ⟨?_, ?_, ?_⟩
        · intro _
          by_cases hv : ∃ g ∈ rest, viableHint g
          · exact ha hv
          · exact hb (fun g hg hvg => hv ⟨g, hg, hvg⟩)
        · intro hall
          exact absurd ⟨ep, hep⟩ (hall h (List.mem_cons_self h rest))
        · intro d dl hm
          have := hc d dl hm
          rcases List.mem_append.mp this with h2 | h2
          · exact h2
          · simp at h2

/-- Helper: every relay contender the relay loop adds carries exactly the
delay it was given; pre-existing contenders pass through. -/
theorem processRelay_spec (l : List PyStr) (cs : List ContenderSpec) (rd : Nat)
    (cs' : List ContenderSpec)
    (hok : processRelay l cs rd = .ok cs') :
    ∀ d dl, ContenderSpec.relay d dl ∈ cs' →
      ContenderSpec.relay d dl ∈ cs ∨ dl = rd := by
  induction l generalizing cs with
  | nil =>
    simp only [processRelay] at hok
    have h1 : cs' = cs := by injection hok with h2; exact h2.symm
    subst h1
    exact fun d dl hm => Or.inl hm
  | cons h rest ih =>
    simp only [processRelay] at hok
    cases hep : _endpoint_from_hint h with
    | error e => rw [hep] at hok; exact absurd hok (by simp)
    | ok o =>
      cases o with
      | none =>
        rw [hep] at hok
        exact ih cs hok
      | some ep =>
        rw [hep] at hok
        intro d dl hm
        rcases ih _ hok d dl hm with h2 | h2
        · rcases List.mem_append.mp h2 with h3 | h3
          · exact Or.inl h3
          · simp only [List.mem_singleton] at h3
            injection h3 with h4 h5
            exact Or.inr h5
        · exact Or.inr h2

/-- C8: whenever `_connect` completes, the winner future is capped at
`2 * TIMEOUT = 30` seconds (after which it is cancelled); if at least one
direct peer hint was viable every relay dial is scheduled with delay
`RELAY_DELAY = 2` seconds, and if no direct hint was viable every relay
dial is scheduled with delay 0. -/
theorem C8_connect_relay_stagger (dh rh : List PyStr) (plan : ConnectPlan)
    (hok : _connect dh rh = .ok plan) :
    plan.cap = 2 * TIMEOUT ∧ 2 * TIMEOUT = 30 ∧ RELAY_DELAY = 2
    ∧ ((∃ h ∈ dh, viableHint h) →
        ∀ d dl, ContenderSpec.relay d dl ∈ plan.contenders → dl = RELAY_DELAY)
    ∧ ((∀ h ∈ dh, ¬ viableHint h) →
        ∀ d dl, ContenderSpec.relay d dl ∈ plan.contenders → dl = 0) := by
  unfold _connect at hok
  cases hpd : processDirect dh [ContenderSpec.listener] 0 with
  | error e => rw [hpd] at hok; exact absurd hok (by simp)
  | ok p =>
    obtain ⟨cs, rd⟩ := p
    rw [hpd] at hok
    dsimp only at hok
    cases hpr : processRelay rh cs rd with
    | error e => rw [hpr] at hok; exact absurd hok (by simp)
    | ok cs2 =>
      rw [hpr] at hok
      have hplan : plan = ⟨cs2, 2 * TIMEOUT⟩ := by
        injection hok with h2; exact h2.symm
      subst hplan
      obtain ⟨ha, hb, hc⟩ := processDirect_spec dh [ContenderSpec.listener] 0 cs rd hpd
      have hnorel : ∀ d dl, ContenderSpec.relay d dl ∈ cs → False := by
        intro d dl hm
        have := hc d dl hm
        simp at this
      refine ⟨rfl, rfl, rfl, ?_, ?_⟩
      · intro hv d dl hm
        rcases processRelay_spec rh cs rd cs2 hpr d dl hm with h2 | h2
        · exact absurd h2 (fun h3 => hnorel d dl h3)
        · rw [h2, ha hv]
      · intro hnv d dl hm
        rcases processRelay_spec rh cs rd cs2 hpr d dl hm with h2 | h2
        · exact absurd h2 (fun h3 => hnorel d dl h3)
        · rw [h2, hb hnv]

/-- Witness for C8 at concrete inputs: with one viable direct hint the relay
dial is delayed by 2 seconds; the plan there is computed exactly. -/
theorem C8_connect_relay_stagger_witness :
    _connect [[ 't', 'c', 'p', ':', 'a', ':', '1']] [[ 't', 'c', 'p', ':', 'r', ':', '4']] =
      .ok ⟨[ContenderSpec.listener,
            ContenderSpec.direct [ '-', '>', 't', 'c', 'p', ':', 'a', ':', '1'],
            ContenderSpec.relay
              [ '-', '>', 'r', 'e', 'l', 'a', 'y', ':', 't', 'c', 'p', ':', 'r', ':', '4'] 2],
           30⟩
    ∧ (∀ d dl, ContenderSpec.relay d dl ∈
        [ContenderSpec.listener,
         ContenderSpec.direct [ '-', '>', 't', 'c', 'p', ':', 'a', ':', '1'],
         ContenderSpec.relay
           [ '-', '>', 'r', 'e', 'l', 'a', 'y', ':', 't', 'c', 'p', ':', 'r', ':', '4'] 2] →
        dl = RELAY_DELAY) := by
  constructor
  · rfl
  · exact (C8_connect_relay_stagger
      [[ 't', 'c', 'p', ':', 'a', ':', '1']] [[ 't', 'c', 'p', ':', 'r', ':', '4']]
      ⟨[ContenderSpec.listener,
        ContenderSpec.direct [ '-', '>', 't', 'c', 'p', ':', 'a', ':', '1'],
        ContenderSpec.relay
          [ '-', '>', 'r', 'e', 'l', 'a', 'y', ':', 't', 'c', 'p', ':', 'r', ':', '4'] 2],
       30⟩ rfl).2.2.2.1
      ⟨[ 't', 'c', 'p', ':', 'a', ':', '1'], by simp, ⟨⟨[ 'a'], 1⟩, by rfl⟩⟩

/-! ## Connection.dataReceivedRECORDS -/

/-- Receive-side record state of a connection in the `"records"` FSM state:
the accumulated buffer and `next_receive_nonce`. -/
structure RecvState where
  buf : Bytes
  next_receive_nonce : Nat
deriving DecidableEq, Repr

/-- Embeds `Connection.dataReceivedRECORDS()` exactly as written: it checks
for one complete frame, extracts and decrypts it, delivers the record, and
then RETURNS — there is no loop over the remaining buffer.  `buf` is
reassigned before `_decrypt_record` runs, so a decryption error leaves the
shortened buffer behind.  (`int(hexlify(buf[:4]), 16)` is `fromBE` here:
the slice is non-empty because the length guard passed.) -/
def dataReceivedRECORDS (key : Bytes) (s : RecvState) :
    Except PyErr (Option Bytes) × RecvState :=
  if s.buf.length < 4 then (.ok none, s)
  else
    let frameLength := fromBE (s.buf.take 4)
    if s.buf.length < 4 + frameLength then (.ok none, s)
    else
      let encrypted := (s.buf.drop 4).take frameLength
      let buf2 := s.buf.drop (4 + frameLength)
      let dec := _decrypt_record key s.next_receive_nonce encrypted
      match dec.1 with
      | .error e => (.error e, ⟨buf2, dec.2⟩)
      | .ok record => (.ok (some record), ⟨buf2, dec.2⟩)

/-- Embeds one `dataReceived(data)` call in the `"records"` state: append the
chunk to the buffer, then run `dataReceivedRECORDS` once. -/
def dataReceived_records (key : Bytes) (s : RecvState) (data : Bytes) :
    Except PyErr (Option Bytes) × RecvState :=
  dataReceivedRECORDS key ⟨s.buf ++ data, s.next_receive_nonce⟩

/-- Sender side of C1: the concatenated wire bytes produced by calling
`send_record` on each message in order, threading `send_nonce`. -/
def send_frames (key : Bytes) (send_nonce : Nat) : List Bytes → Except PyErr Bytes
  | [] => .ok []
  | m :: ms =>
    match send_record key send_nonce (.bytes m) with
    | .error e => .error e
    | .ok res =>
      match send_frames key res.send_nonce ms with
      | .error e => .error e
      | .ok rest => .ok (res.wire ++ rest)

/-- Wire frame of `b"a"` under nonce 0 (length 25 = 24-byte nonce + 1). -/
def c1FrameA : Bytes := toBE 4 25 ++ toBE 24 0 ++ [97]

/-- Wire frame of `b"b"` under nonce 1. -/
def c1FrameB : Bytes := toBE 4 25 ++ toBE 24 1 ++ [98]

/-- C1 divergence witness: the sender emits the frames of `b"a"`, `b"b"`
with wire nonces 0, 1; feeding both frames to the receiver's records-state
data path in a single chunk delivers only `b"a"` — the call returns with the
complete second frame still in the buffer (4 ≤ length and
4 + frameLength ≤ length), because `dataReceivedRECORDS` processes at most
one record per `dataReceived` call instead of repeating until no complete
frame remains. -/
theorem C1_records_one_record_per_chunk :
    send_frames [] 0 [[97], [98]] = .ok (c1FrameA ++ c1FrameB)
    ∧ dataReceived_records [] ⟨[], 0⟩ (c1FrameA ++ c1FrameB) =
        (.ok (some [97]), ⟨c1FrameB, 1⟩)
    ∧ 4 ≤ c1FrameB.length ∧ 4 + fromBE (c1FrameB.take 4) ≤ c1FrameB.length := by
  refine ⟨rfl, rfl, by decide, by decide⟩

/-! ## Connection._deliverRecords -/

/-- Queue state of a connection with no consumer attached: the
`_inbound_records` deque, the `_waiting_reads` deque (readers identified by
number, standing for their Deferreds), and the `(reader, record)` callback
pairs fired so far, in firing order. -/
structure QState where
  _inbound_records : List Bytes
  _waiting_reads : List Nat
  delivered : List (Nat × Bytes)
deriving DecidableEq

/-- Embeds the `while self._inbound_records and self._waiting_reads:` loop of
`_deliverRecords`: pop one record and one reader and fire the callback,
until one queue is empty. -/
def deliverLoop : List Bytes → List Nat → List (Nat × Bytes) →
    List Bytes × List Nat × List (Nat × Bytes)
  | [], ds, acc => ([], ds, acc)
  | r :: rs, [], acc => (r :: rs, [], acc)
  | r :: rs, d :: ds, acc => deliverLoop rs ds (acc ++ [(d, r)])

/-- Embeds `Connection._deliverRecords()`. -/
def _deliverRecords (s : QState) : QState :=
  let t := deliverLoop s._inbound_records s._waiting_reads s.delivered
  ⟨t.1, t.2.1, t.2.2⟩

/-- Embeds `Connection.recordReceived(record)` in the claim's setting of no
attached consumer: append the record and pair queues off. -/
def recordReceived (s : QState) (record : Bytes) : QState :=
  _deliverRecords { s with _inbound_records := s._inbound_records ++ [record] }

/-- Embeds `Connection.receive_record()`: append a fresh waiting Deferred
and pair queues off (the returned Deferred is the reader id). -/
def receive_record (s : QState) (d : Nat) : QState :=
  _deliverRecords { s with _waiting_reads := s._waiting_reads ++ [d] }

/-- One inbound event on the queue pair: a record arrival or a reader. -/
inductive QOp where
  | arrival (record : Bytes)
  | read (d : Nat)

/-- Queue state after `__init__`: both deques empty, nothing delivered. -/
def qInit : QState := ⟨[], [], []⟩

/-- Runs a sequence of `recordReceived` / `receive_record` calls. -/
def runQ (s : QState) : List QOp → QState
  | [] => s
  | .arrival r :: ops => runQ (recordReceived s r) ops
  | .read d :: ops => runQ (receive_record s d) ops

/-- Records carried by an event sequence, in arrival order. -/
def qopsRecords (ops : List QOp) : List Bytes :=
  ops.filterMap (fun o => match o with | .arrival r => some r | .read _ => none)

/-- Readers carried by an event sequence, in arrival order. -/
def qopsReaders (ops : List QOp) : List Nat :=
  ops.filterMap (fun o => match o with | .arrival _ => none | .read d => some d)

/-- Helper: closed form of the delivery loop — it drops the paired-off
prefixes and appends the zip of the two queues. -/
theorem deliverLoop_eq (rs : List Bytes) (ds : List Nat) (acc : List (Nat × Bytes)) :
    deliverLoop rs ds acc =
      (rs.drop ds.length, ds.drop rs.length, acc ++ ds.zip rs) := by
  induction rs generalizing ds acc with
  | nil =>
    cases ds <;> simp [deliverLoop]
  | cons r rs ih =>
    cases ds with
    | nil => simp [deliverLoop]
    | cons d ds =>
      rw [deliverLoop, ih ds (acc ++ [(d, r)])]
      simp

/-- Helper list algebra for a record arrival: appending one record to the
record stream commutes with the drop/zip description of the queue state. -/
theorem queue_step_record (D : List Nat) (R : List Bytes) (r : Bytes) :
    (R.drop D.length ++ [r]).drop (D.drop R.length).length = (R ++ [r]).drop D.length
    ∧ (D.drop R.length).drop (R.drop D.length ++ [r]).length = D.drop (R ++ [r]).length
    ∧ D.zip R ++ (D.drop R.length).zip (R.drop D.length ++ [r]) = D.zip (R ++ [r]) := by
  induction D generalizing R with
  | nil => simp
  | cons d D ih =>
    cases R with
    | nil =>
      refine ⟨?_, ?_, ?_⟩
      · have h1 : ([r] : List Bytes).drop (D.length + 1) = [] :=
          List.drop_eq_nil_of_le (by simp)
        have h2 : (([] : List Bytes) ++ [r]).drop ((d :: D).length) = [] :=
          List.drop_eq_nil_of_le (by simp)
        simpa [h1] using h2.symm
      · simp
      · simp
    | cons x R =>
      obtain ⟨h1, h2, h3⟩ := ih R
      refine ⟨?_, ?_, ?_⟩
      · simpa using h1
      · simpa using h2
      · simpa using h3

/-- Helper list algebra for a reader arrival, symmetric to
`queue_step_record`. -/
theorem queue_step_reader (D : List Nat) (R : List Bytes) (d : Nat) :
    (R.drop D.length).drop (D.drop R.length ++ [d]).length = R.drop (D ++ [d]).length
    ∧ (D.drop R.length ++ [d]).drop (R.drop D.length).length = (D ++ [d]).drop R.length
    ∧ D.zip R ++ (D.drop R.length ++ [d]).zip (R.drop D.length) = (D ++ [d]).zip R := by
  induction D generalizing R with
  | nil =>
    cases R with
    | nil => simp
    | cons x R =>
      refine ⟨?_, ?_, ?_⟩
      · have h1 : ((x :: R) : List Bytes).drop (([] : List Nat) ++ [d]).length = R :=
          by simp
        simp
      · simp
      · simp
  | cons e D ih =>
    cases R with
    | nil =>
      refine ⟨?_, ?_, ?_⟩
      · simp
      · have h1 : (((e :: D) : List Nat) ++ [d]).drop 0 = e :: (D ++ [d]) := by simp
        simp
      · simp
    | cons x R =>
      obtain ⟨h1, h2, h3⟩ := ih R
      refine ⟨?_, ?_, ?_⟩
      · simpa using h1
      · simpa using h2
      · simpa using h3

/-- Helper: the reachable queue states are exactly described by dropping and
zipping the record and reader arrival streams. -/
theorem runQ_spec (ops : List QOp) (R : List Bytes) (D : List Nat) (s : QState)
    (h1 : s._inbound_records = R.drop D.length)
    (h2 : s._waiting_reads = D.drop R.length)
    (h3 : s.delivered = D.zip R) :
    (runQ s ops)._inbound_records =
      (R ++ qopsRecords ops).drop (D ++ qopsReaders ops).length
    ∧ (runQ s ops)._waiting_reads =
      (D ++ qopsReaders ops).drop (R ++ qopsRecords ops).length
    ∧ (runQ s ops).delivered = (D ++ qopsReaders ops).zip (R ++ qopsRecords ops) := by
  induction ops generalizing R D s with
  | nil =>
    simp only [runQ, qopsRecords, qopsReaders, List.filterMap_nil, List.append_nil]
    exact ⟨h1, h2, h3⟩
  | cons op ops ih =>
    cases op with
    | arrival r =>
      obtain ⟨k1, k2, k3⟩ := queue_step_record D R r
      have hstep1 : (recordReceived s r)._inbound_records = (R ++ [r]).drop D.length := by
        simp only [recordReceived, _deliverRecords, deliverLoop_eq, h1, h2, h3]
        exact k1
      have hstep2 : (recordReceived s r)._waiting_reads = D.drop (R ++ [r]).length := by
        simp only [recordReceived, _deliverRecords, deliverLoop_eq, h1, h2, h3]
        exact k2
      have hstep3 : (recordReceived s r).delivered = D.zip (R ++ [r]) := by
        simp only [recordReceived, _deliverRecords, deliverLoop_eq, h1, h2, h3]
        exact k3
      obtain ⟨g1, g2, g3⟩ := ih (R ++ [r]) D (recordReceived s r) hstep1 hstep2 hstep3
      refine ⟨?_, ?_, ?_⟩
      · rw [show runQ s (QOp.arrival r :: ops) = runQ (recordReceived s r) ops from rfl, g1]
        simp [qopsRecords, qopsReaders]
      · rw [show runQ s (QOp.arrival r :: ops) = runQ (recordReceived s r) ops from rfl, g2]
        simp [qopsRecords, qopsReaders]
      · rw [show runQ s (QOp.arrival r :: ops) = runQ (recordReceived s r) ops from rfl, g3]
        simp [qopsRecords, qopsReaders]
    | read d =>
      obtain ⟨k1, k2, k3⟩ := queue_step_reader D R d
      have hstep1 : (receive_record s d)._inbound_records = R.drop (D ++ [d]).length := by
        simp only [receive_record, _deliverRecords, deliverLoop_eq, h1, h2, h3]
        exact k1
      have hstep2 : (receive_record s d)._waiting_reads = (D ++ [d]).drop R.length := by
        simp only [receive_record, _deliverRecords, deliverLoop_eq, h1, h2, h3]
        exact k2
      have hstep3 : (receive_record s d).delivered = (D ++ [d]).zip R := by
        simp only [receive_record, _deliverRecords, deliverLoop_eq, h1, h2, h3]
        exact k3
      obtain ⟨g1, g2, g3⟩ := ih R (D ++ [d]) (receive_record s d) hstep1 hstep2 hstep3
      refine ⟨?_, ?_, ?_⟩
      · rw [show runQ s (QOp.read d :: ops) = runQ (receive_record s d) ops from rfl, g1]
        simp [qopsRecords, qopsReaders]
      · rw [show runQ s (QOp.read d :: ops) = runQ (receive_record s d) ops from rfl, g2]
        simp [qopsRecords, qopsReaders]
      · rw [show runQ s (QOp.read d :: ops) = runQ (receive_record s d) ops from rfl, g3]
        simp [qopsRecords, qopsReaders]

/-- C9: after any sequence of completed `recordReceived` / `receive_record`
calls with no consumer attached, the inbound record queue and the
waiting-reader queue are never both non-empty, and `_deliverRecords` pairs
readers with records FIFO: the fired callbacks are exactly the readers in
arrival order zipped with the records in arrival order. -/
theorem C9_deliver_records_invariant (ops : List QOp) :
    ((runQ qInit ops)._inbound_records = [] ∨ (runQ qInit ops)._waiting_reads = [])
    ∧ (runQ qInit ops).delivered = (qopsReaders ops).zip (qopsRecords ops) := by
  obtain ⟨g1, g2, g3⟩ := runQ_spec ops [] [] qInit rfl rfl rfl
  simp only [List.nil_append] at g1 g2 g3
  refine ⟨?_, g3⟩
  by_cases hle : (qopsRecords ops).length ≤ (qopsReaders ops).length
  · exact Or.inl (by rw [g1]; exact List.drop_eq_nil_of_le hle)
  · exact Or.inr (by rw [g2]; exact List.drop_eq_nil_of_le (by omega))

/-! ## _ThereCanBeOnlyOne / there_can_be_only_one

Deferreds are shallowly embedded by their settlement events: contenders are
numbered `0 .. n-1`, and the reactor delivers at most one settlement per
contender, in some order; a contender cancelled while still pending settles
immediately (synchronously) with `CancelledError`, exactly as
`Deferred.cancel` errbacks it.  Each settlement runs the callback chain
`run()` installed: `_remove`, then `_succeeded` / `_failed` (both of which
return `None`, so the chain continues), then `_maybe_done`. -/

/-- Settlement value of a contender Deferred. -/
inductive Outcome where
  | succ (v : Nat)
  | fail (e : PyErr)
deriving DecidableEq

/-- State of a `_ThereCanBeOnlyOne` instance, plus the observable effects:
`result` is what `_winner_d` fired with (`none` while pending) and
`cancelled` lists the contenders whose `cancel()` was invoked while they
were still pending, in order. -/
structure ArbState where
  _remaining : List Nat
  _first_success : Option Nat
  _first_failure : Option PyErr
  _have_winner : Bool
  _fired : Bool
  result : Option (Except PyErr Nat)
  cancelled : List Nat

/-- State after `__init__` on contenders `0 .. n-1` (`run()` installs the
callback chains but settles nothing). -/
def arbiter_init (n : Nat) : ArbState :=
  ⟨List.range n, none, none, false, false, none, []⟩

/-- Embeds `_maybe_done`: nothing happens while contenders remain or after
the summary fired; otherwise fire once with the winner's value, or with the
first-recorded failure. -/
def _maybe_done (s : ArbState) : ArbState :=
  if s._remaining ≠ [] then s
  else if s._fired then s
  else
    { s with _fired := true,
             result := some (if s._have_winner then .ok (s._first_success.getD 0)
                             else .error (s._first_failure.getD .cancelledError)) }

/-- Embeds `_failed`: record the first failure only. -/
def _failed (s : ArbState) (e : PyErr) : ArbState :=
  if s._first_failure = none then { s with _first_failure := some e } else s

/-- Embeds `d.cancel()` on contender `j`: if `j` is still pending it settles
right away with `CancelledError` and its chain (`_remove`, `_failed`,
`_maybe_done`) runs; an already-settled contender ignores the cancel. -/
def cancelOne (s : ArbState) (j : Nat) : ArbState :=
  if j ∈ s._remaining then
    _maybe_done (_failed { s with _remaining := s._remaining.erase j,
                                  cancelled := s.cancelled ++ [j] } .cancelledError)
  else s

/-- Embeds `_succeeded`: set the winner, then cancel every contender in a
snapshot of `_remaining` (`for d in list(self._remaining): d.cancel()`). -/
def _succeeded (s : ArbState) (v : Nat) : ArbState :=
  let s1 := { s with _have_winner := true, _first_success := some v }
  s1._remaining.foldl cancelOne s1

/-- One contender settling: its `_remove` runs first (so `_succeeded` never
cancels the settling contender itself), then `_succeeded`/`_failed`, then
`_maybe_done`.  A contender no longer in `_remaining` has already settled
(e.g. was cancelled), and a Deferred settles at most once. -/
def settle (s : ArbState) (i : Nat) (o : Outcome) : ArbState :=
  if i ∈ s._remaining then
    let s1 := { s with _remaining := s._remaining.erase i }
    match o with
    | .succ v => _maybe_done (_succeeded s1 v)
    | .fail e => _maybe_done (_failed s1 e)
  else s

/-- Runs a sequence of settlement events. -/
def runEvents (s : ArbState) (evs : List (Nat × Outcome)) : ArbState :=
  evs.foldl (fun s p => settle s p.1 p.2) s

/-- Embeds `there_can_be_only_one(contenders)` observed through the
settlement events the reactor delivers. -/
def run_arbiter (n : Nat) (evs : List (Nat × Outcome)) : ArbState :=
  runEvents (arbiter_init n) evs

/-- Error of the first failure event, as `_failed` records it. -/
def firstFail : List (Nat × Outcome) → Option PyErr
  | [] => none
  | (_, Outcome.fail e) :: _ => some e
  | (_, Outcome.succ _) :: rest => firstFail rest

/-- Helper: with nobody pending and the summary not yet fired, `_maybe_done`
fires it. -/
theorem maybe_done_fire (s : ArbState) (h1 : s._remaining = []) (h2 : s._fired = false) :
    _maybe_done s =
      { s with
        _fired := true,
        result := some (if s._have_winner then .ok (s._first_success.getD 0)
                        else .error (s._first_failure.getD .cancelledError)) } := by
  unfold _maybe_done
  rw [if_neg (by simp [h1]), if_neg (by simp [h2])]

/-- Helper: while contenders remain, `_maybe_done` does nothing. -/
theorem maybe_done_skip (s : ArbState) (h1 : s._remaining ≠ []) : _maybe_done s = s := by
  unfold _maybe_done
  rw [if_pos h1]

/-- Helper: a fired summary never fires again. -/
theorem maybe_done_fired (s : ArbState) (h2 : s._fired = true) : _maybe_done s = s := by
  unfold _maybe_done
  by_cases h1 : s._remaining = []
  · rw [if_neg (not_not_intro h1), if_pos h2]
  · rw [if_pos h1]

/-- Helper: the cancellation sweep of `_succeeded` empties `_remaining`,
cancels exactly the snapshot, and (when the snapshot is non-empty) the last
cancellation's `_maybe_done` fires the summary with the winner's value. -/
theorem cancel_fold_spec (L : List Nat) : ∀ (s : ArbState) (v : Nat),
    s._remaining = L → s._have_winner = true → s._first_success = some v →
    s._fired = false → s.result = none →
    (L.foldl cancelOne s)._remaining = []
    ∧ (L.foldl cancelOne s).cancelled = s.cancelled ++ L
    ∧ (L = [] → L.foldl cancelOne s = s)
    ∧ (L ≠ [] → (L.foldl cancelOne s)._fired = true
        ∧ (L.foldl cancelOne s).result = some (.ok v)) := by
  induction L with
  | nil =>
    intro s v hrem _ _ _ _
    exact ⟨hrem, by simp, fun _ => rfl, fun hne => absurd rfl hne⟩
  | cons j L ih =>
    intro s v hrem hw hfs hf hr
    have hmem : j ∈ s._remaining := by rw [hrem]; exact List.mem_cons_self j L
    have hstep : cancelOne s j =
        _maybe_done (_failed { s with _remaining := s._remaining.erase j,
                                      cancelled := s.cancelled ++ [j] } .cancelledError) := by
      unfold cancelOne
      rw [if_pos hmem]
    have herase : s._remaining.erase j = L := by rw [hrem]; exact List.erase_cons_head j L
    set s2 := _failed { s with _remaining := s._remaining.erase j,
                               cancelled := s.cancelled ++ [j] } .cancelledError with hs2
    have hs2rem : s2._remaining = L := by
      simp only [hs2, _failed]
      split <;> simpa using herase
    have hs2can : s2.cancelled = s.cancelled ++ [j] := by
      simp only [hs2, _failed]
      split <;> rfl
    have hs2w : s2._have_winner = true := by
      simp only [hs2, _failed]
      split <;> simpa using hw
    have hs2fs : s2._first_success = some v := by
      simp only [hs2, _failed]
      split <;> simpa using hfs
    have hs2f : s2._fired = false := by
      simp only [hs2, _failed]
      split <;> simpa using hf
    have hs2r : s2.result = none := by
      simp only [hs2, _failed]
      split <;> simpa using hr
    cases L with
    | nil =>
      have hmd : _maybe_done s2 =
          { s2 with _fired := true, result := some (.ok v) } := by
        unfold _maybe_done
        rw [if_neg (by simp [hs2rem]), if_neg (by simp [hs2f])]
        rw [hs2w, hs2fs]
        rfl
      have hfold : (j :: ([] : List Nat)).foldl cancelOne s = _maybe_done s2 := by
        simp only [List.foldl_cons, List.foldl_nil, hstep]
      rw [hfold, hmd]
      refine ⟨hs2rem, by simpa using hs2can, by simp, fun _ => ⟨rfl, rfl⟩⟩
    | cons k L2 =>
      have hmd : _maybe_done s2 = s2 := by
        unfold _maybe_done
        rw [if_pos (by simp [hs2rem])]
      have hfold : ((j :: k :: L2).foldl cancelOne s) = (k :: L2).foldl cancelOne s2 := by
        simp only [List.foldl_cons, hstep, hmd]
      obtain ⟨g1, g2, _, g4⟩ := ih s2 v hs2rem hs2w hs2fs hs2f hs2r
      rw [hfold]
      refine ⟨g1, ?_, by simp, fun _ => g4 (by simp)⟩
      rw [g2, hs2can]
      simp

/-- Helper: a successful settlement by a still-pending contender empties the
race, fires the summary with that value, and cancels exactly the other
still-pending contenders. -/
theorem settle_succ_spec (s : ArbState) (i v : Nat)
    (hmem : i ∈ s._remaining) (hw : s._have_winner = false)
    (hf : s._fired = false) (hr : s.result = none) :
    (settle s i (.succ v))._remaining = []
    ∧ (settle s i (.succ v))._fired = true
    ∧ (settle s i (.succ v)).result = some (.ok v)
    ∧ (settle s i (.succ v)).cancelled = s.cancelled ++ s._remaining.erase i := by
  have hstep : settle s i (.succ v) =
      _maybe_done (_succeeded { s with _remaining := s._remaining.erase i } v) := by
    unfold settle
    rw [if_pos hmem]
  have hsucc : _succeeded { s with _remaining := s._remaining.erase i } v =
      List.foldl cancelOne
        { s with _remaining := s._remaining.erase i,
                 _have_winner := true, _first_success := some v }
        (s._remaining.erase i) := rfl
  obtain ⟨g1, g2, g3, g4⟩ := cancel_fold_spec (s._remaining.erase i)
    { s with _remaining := s._remaining.erase i,
             _have_winner := true, _first_success := some v } v rfl rfl rfl hf hr
  by_cases hL : s._remaining.erase i = []
  · have hfold := g3 hL
    rw [hstep, hsucc, hfold,
      maybe_done_fire
        { s with _remaining := s._remaining.erase i,
                 _have_winner := true, _first_success := some v } hL hf]
    refine ⟨hL, rfl, rfl, ?_⟩
    rw [hL]
    simp
  · have g4' := g4 hL
    rw [hstep, hsucc, maybe_done_fired _ g4'.1]
    exact ⟨g1, g4'.1, g4'.2, g2⟩

/-- Helper: a settlement event for a contender that is no longer pending is
ignored. -/
theorem settle_skip (s : ArbState) (i : Nat) (o : Outcome) (h : i ∉ s._remaining) :
    settle s i o = s := by
  unfold settle
  rw [if_neg h]

/-- Helper: once nobody is pending, all further events are ignored. -/
theorem runEvents_skip (evs : List (Nat × Outcome)) (s : ArbState)
    (h : s._remaining = []) : runEvents s evs = s := by
  induction evs with
  | nil => rfl
  | cons p evs ih =>
    have h1 : settle s p.1 p.2 = s := settle_skip s p.1 p.2 (by simp [h])
    show runEvents (settle s p.1 p.2) evs = s
    rw [h1, ih]

/-- Helper: a chain of failure settlements by distinct still-pending
contenders removes them from `_remaining`, records the first failure,
cancels nobody, and fires the summary with the first failure exactly when
the last pending contender settles. -/
theorem fail_chain_spec (evs : List (Nat × Outcome)) : ∀ (s : ArbState),
    (∀ p ∈ evs, ∃ e, p.2 = Outcome.fail e) →
    (evs.map Prod.fst).Nodup →
    (∀ j ∈ evs.map Prod.fst, j ∈ s._remaining) →
    s._remaining.Nodup →
    s._have_winner = false → s._fired = false → s.result = none →
    (∀ j, j ∈ (runEvents s evs)._remaining ↔ (j ∈ s._remaining ∧ j ∉ evs.map Prod.fst))
    ∧ (runEvents s evs)._remaining.Nodup
    ∧ (runEvents s evs)._have_winner = false
    ∧ (runEvents s evs).cancelled = s.cancelled
    ∧ (s._first_failure = none → (runEvents s evs)._first_failure = firstFail evs)
    ∧ (∀ e0, s._first_failure = some e0 → (runEvents s evs)._first_failure = some e0)
    ∧ ((runEvents s evs)._remaining ≠ [] →
        (runEvents s evs)._fired = false ∧ (runEvents s evs).result = none)
    ∧ ((runEvents s evs)._remaining = [] → evs ≠ [] →
        (runEvents s evs)._fired = true
        ∧ (runEvents s evs).result =
            some (.error ((runEvents s evs)._first_failure.getD .cancelledError))) := by
  induction evs with
  | nil =>
    intro s _ _ _ hnd hw hf hr
    refine ⟨by simp [runEvents], hnd, hw, rfl, fun h => by simp [runEvents, firstFail, h],
      fun e0 h => by simpa [runEvents] using h, fun _ => ⟨hf, hr⟩,
      fun _ hne => absurd rfl hne⟩
  | cons p rest ih =>
    intro s hfail hnd hidx hrnd hw hf hr
    obtain ⟨i, o⟩ := p
    obtain ⟨e, he⟩ := hfail (i, o) (List.mem_cons_self _ _)
    simp only at he
    subst he
    have hmem : i ∈ s._remaining := hidx i (by simp)
    have hstep : settle s i (.fail e) =
        _maybe_done (_failed { s with _remaining := s._remaining.erase i } e) := by
      unfold settle
      rw [if_pos hmem]
    set s2 := _failed { s with _remaining := s._remaining.erase i } e with hs2
    have hs2rem : s2._remaining = s._remaining.erase i := by
      simp only [hs2, _failed]
      split <;> rfl
    have hs2can : s2.cancelled = s.cancelled := by
      simp only [hs2, _failed]
      split <;> rfl
    have hs2w : s2._have_winner = false := by
      simp only [hs2, _failed]
      split <;> simpa using hw
    have hs2f : s2._fired = false := by
      simp only [hs2, _failed]
      split <;> simpa using hf
    have hs2r : s2.result = none := by
      simp only [hs2, _failed]
      split <;> simpa using hr
    have hs2ff : s2._first_failure =
        (if s._first_failure = none then some e else s._first_failure) := by
      simp only [hs2, _failed]
      split <;> simp_all
    have hs2nd : s2._remaining.Nodup := by
      rw [hs2rem]
      exact hrnd.erase i
    have hrestidx : ∀ j ∈ rest.map Prod.fst, j ∈ s2._remaining := by
      intro j hj
      rw [hs2rem]
      have hji : j ≠ i := by
        intro hji
        subst hji
        simp only [List.map_cons, List.nodup_cons] at hnd
        exact hnd.1 hj
      rw [List.mem_erase_of_ne hji]
      exact hidx j (by simp [hj])
    have hmemiff : ∀ j, j ∈ s2._remaining ↔ (j ∈ s._remaining ∧ j ≠ i) := by
      intro j
      rw [hs2rem, hrnd.mem_erase_iff]
      exact and_comm
    by_cases herase : s._remaining.erase i = []
    case pos =>
      have hrest : rest = [] := by
        cases rest with
        | nil => rfl
        | cons q rest2 =>
          exfalso
          have := hrestidx q.1 (by simp)
          rw [hs2rem, herase] at this
          simp at this
      subst hrest
      have hmd : _maybe_done s2 =
          { s2 with _fired := true,
                    result := some (.error (s2._first_failure.getD .cancelledError)) } := by
        unfold _maybe_done
        rw [if_neg (by simp [hs2rem, herase]), if_neg (by simp [hs2f])]
        rw [hs2w]
        rfl
      have hrun : runEvents s [(i, Outcome.fail e)] =
          { s2 with _fired := true,
                    result := some (.error (s2._first_failure.getD .cancelledError)) } := by
        show runEvents (settle s i (.fail e)) [] = _
        rw [hstep, hmd]
        rfl
      rw [hrun]
      refine ⟨?_, by simp [hs2rem, herase], hs2w, hs2can, ?_, ?_, ?_, ?_⟩
      · intro j
        simp only [hs2rem, herase]
        constructor
        · intro h2; exact absurd h2 (by simp)
        · rintro ⟨hjs, hji⟩
          have : j ∈ s._remaining.erase i := by
            rw [hrnd.mem_erase_iff]
            exact ⟨by simpa using hji, hjs⟩
          rw [herase] at this
          exact absurd this (by simp)
      · intro hffn
        rw [hs2ff, if_pos hffn]
        rfl
      · intro e0 h0
        rw [hs2ff, if_neg (by simp [h0])]
        exact h0
      · intro hne
        exact absurd (by simp [hs2rem, herase]) hne
      · intro _ _
        exact ⟨rfl, rfl⟩
    case neg =>
      have hmd : _maybe_done s2 = s2 := by
        unfold _maybe_done
        rw [if_pos (by simp [hs2rem, herase])]
      have hrun : runEvents s ((i, Outcome.fail e) :: rest) = runEvents s2 rest := by
        show runEvents (settle s i (.fail e)) rest = _
        rw [hstep, hmd]
      obtain ⟨g1, g2, g3, g4, g5, g6, g7, g8⟩ := ih s2
        (fun q hq => hfail q (by simp [hq]))
        (by simp only [List.map_cons, List.nodup_cons] at hnd; exact hnd.2)
        hrestidx hs2nd hs2w hs2f hs2r
      rw [hrun]
      refine ⟨?_, g2, g3, by rw [g4, hs2can], ?_, ?_, g7, ?_⟩
      · intro j
        rw [g1 j, hmemiff j]
        simp only [List.map_cons, List.mem_cons]
        constructor
        · rintro ⟨⟨hjs, hji⟩, hjr⟩
          exact ⟨hjs, by rintro (h2 | h2); exact hji h2; exact hjr h2⟩
        · rintro ⟨hjs, hnot⟩
          exact ⟨⟨hjs, fun h2 => hnot (Or.inl h2)⟩, fun h2 => hnot (Or.inr h2)⟩
      · intro hffn
        rw [hs2ff, if_pos hffn] at g6
        exact g6 e (by rfl)
      · intro e0 h0
        have : s2._first_failure = some e0 := by
          rw [hs2ff, if_neg (by simp [h0])]
          exact h0
        exact g6 e0 this
      · intro hempty hne
        by_cases hrest2 : rest = []
        · subst hrest2
          exfalso
          have : runEvents s2 ([] : List (Nat × Outcome)) = s2 := rfl
          rw [this] at hempty
          rw [hs2rem] at hempty
          exact herase hempty
        · exact g8 hempty hrest2

/-- C4: with distinct in-range contender indices, if the settlement order is
some failures followed by a success with value `v`, the summary resolves
with `v` — the first successful value — and exactly the contenders still
pending at that moment are cancelled (later events are ignored); if every
contender fails, the summary resolves with the first-recorded failure.  In
particular a single success yields its value, a single failure yields its
error, and a failure followed by a success yields the success with the
others cancelled. -/
theorem C4_there_can_be_only_one (n : Nat) :
    (∀ (pre post : List (Nat × Outcome)) (i v : Nat),
      (∀ p ∈ pre, ∃ e, p.2 = Outcome.fail e) →
      (pre.map Prod.fst).Nodup →
      (∀ j ∈ pre.map Prod.fst, j < n) →
      i < n → i ∉ pre.map Prod.fst →
      (run_arbiter n (pre ++ (i, Outcome.succ v) :: post)).result = some (.ok v)
      ∧ (∀ j, j ∈ (run_arbiter n (pre ++ (i, Outcome.succ v) :: post)).cancelled ↔
          (j < n ∧ j ∉ pre.map Prod.fst ∧ j ≠ i)))
    ∧ (∀ (i : Nat) (e : PyErr) (rest : List (Nat × Outcome)),
      (∀ p ∈ (i, Outcome.fail e) :: rest, ∃ e2, p.2 = Outcome.fail e2) →
      (((i, Outcome.fail e) :: rest).map Prod.fst).Nodup →
      (∀ j ∈ ((i, Outcome.fail e) :: rest).map Prod.fst, j < n) →
      (∀ j, j < n → j ∈ ((i, Outcome.fail e) :: rest).map Prod.fst) →
      (run_arbiter n ((i, Outcome.fail e) :: rest)).result = some (.error e)) := by
  constructor
  · intro pre post i v hfail hnd hbound hi hnotin
    have hsplit : run_arbiter n (pre ++ (i, Outcome.succ v) :: post) =
        runEvents (settle (runEvents (arbiter_init n) pre) i (Outcome.succ v)) post := by
      unfold run_arbiter runEvents
      rw [List.foldl_append, List.foldl_cons]
    obtain ⟨g1, g2, g3, g4, _, _, g7, _⟩ := fail_chain_spec pre (arbiter_init n) hfail hnd
      (fun j hj => by simpa [arbiter_init, List.mem_range] using hbound j hj)
      (by simp [arbiter_init, List.nodup_range]) rfl rfl rfl
    have hiin : i ∈ (runEvents (arbiter_init n) pre)._remaining :=
      (g1 i).mpr ⟨by simp [arbiter_init, List.mem_range, hi], hnotin⟩
    have hne : (runEvents (arbiter_init n) pre)._remaining ≠ [] :=
      List.ne_nil_of_mem hiin
    have hfr := g7 hne
    obtain ⟨k1, k2, k3, k4⟩ :=
      settle_succ_spec (runEvents (arbiter_init n) pre) i v hiin g3 hfr.1 hfr.2
    have hpost : runEvents (settle (runEvents (arbiter_init n) pre) i (Outcome.succ v))
        post = settle (runEvents (arbiter_init n) pre) i (Outcome.succ v) :=
      runEvents_skip post _ k1
    constructor
    · rw [hsplit, hpost]
      exact k3
    · intro j
      rw [hsplit, hpost, k4, g4]
      have hinitc : (arbiter_init n).cancelled = [] := rfl
      rw [hinitc, List.nil_append, g2.mem_erase_iff, g1 j]
      have hjr : j ∈ (arbiter_init n)._remaining ↔ j < n := by
        simp [arbiter_init, List.mem_range]
      rw [hjr]
      constructor
      · rintro ⟨hji, hjn, hjp⟩
        exact ⟨hjn, hjp, hji⟩
      · rintro ⟨hjn, hjp, hji⟩
        exact ⟨hji, hjn, hjp⟩
  · intro i e rest hfail hnd hbound hcover
    obtain ⟨g1, _, _, _, g5, _, _, g8⟩ :=
      fail_chain_spec ((i, Outcome.fail e) :: rest) (arbiter_init n) hfail hnd
        (fun j hj => by simpa [arbiter_init, List.mem_range] using hbound j hj)
        (by simp [arbiter_init, List.nodup_range]) rfl rfl rfl
    have hempty : (runEvents (arbiter_init n) ((i, Outcome.fail e) :: rest))._remaining
        = [] := by
      apply List.eq_nil_iff_forall_not_mem.mpr
      intro j hj
      obtain ⟨hjr, hjn⟩ := (g1 j).mp hj
      have hjlt : j < n := by simpa [arbiter_init, List.mem_range] using hjr
      exact hjn (hcover j hjlt)
    obtain ⟨hfired, hres⟩ := g8 hempty (by simp)
    have hff : (runEvents (arbiter_init n)
        ((i, Outcome.fail e) :: rest))._first_failure = some e := g5 rfl
    show (runEvents (arbiter_init n) ((i, Outcome.fail e) :: rest)).result
        = some (.error e)
    rw [hres, hff]
    rfl

/-- Witness for C4 at concrete inputs: with contenders 0, 1, 2 settling as
fail, succeed(7), fail, the summary fires with 7 and contender 2 is
cancelled; with a single failing contender, the summary fires with its
error. -/
theorem C4_there_can_be_only_one_witness :
    (run_arbiter 3 [(0, Outcome.fail PyErr.valueError), (1, Outcome.succ 7),
        (2, Outcome.fail PyErr.indexError)]).result = some (.ok 7)
    ∧ 2 ∈ (run_arbiter 3 [(0, Outcome.fail PyErr.valueError), (1, Outcome.succ 7),
        (2, Outcome.fail PyErr.indexError)]).cancelled
    ∧ (run_arbiter 1 [(0, Outcome.fail PyErr.valueError)]).result =
        some (.error PyErr.valueError) := by
  have hA := (C4_there_can_be_only_one 3).1 [(0, Outcome.fail PyErr.valueError)]
    [(2, Outcome.fail PyErr.indexError)] 1 7
    (by
      intro p hp
      rw [List.mem_singleton] at hp
      subst hp
      exact ⟨PyErr.valueError, rfl⟩)
    (by decide) (by decide) (by decide) (by decide)
  have hB := (C4_there_can_be_only_one 1).2 0 PyErr.valueError []
    (by
      intro p hp
      rw [List.mem_singleton] at hp
      subst hp
      exact ⟨PyErr.valueError, rfl⟩)
    (by decide) (by decide)
    (fun j hj => by
      have hj0 : j = 0 := Nat.lt_one_iff.mp hj
      subst hj0
      simp)
  exact ⟨hA.1, (hA.2 2).mpr (by refine ⟨by decide, by decide, by decide⟩), hB⟩

end Transit
